import Mathlib

/-!
  Verification development for the versionhero repository
  (src/repo_details.py and src/versionhero.py).

  The repository state visible to the code (ordered commit lists, tag list,
  diff counts, branch name, strftime behaviour) is the external
  RepositoryAccess collaborator; it is modelled by plain data supplied in a
  `RepoState`.  All algorithmic code of the repository itself
  (`RepoDetails._calculate_version_value`, `RepoDetails._apply_format` and the
  value accessors, `KeywordReplacer.simple_replacement` / `execute`) is
  embedded as executable Lean functions below, translated clause by clause
  from the Python source.  Python exceptions are modelled with
  `Except String`; the dynamic f-string evaluation performed by
  `_apply_format` is modelled by an explicit f-string scanner whose
  expression environment contains exactly the expressions the substitution
  table can produce (any other expression raises, as `eval` of an unknown
  name does).
-/

namespace VersionHero

/-- A git tag: a name pointing at a target commit hash
(the code reads `tag.name` and `tag.object.hexsha`). -/
structure Tag where
  name : String
  sha : String
  deriving DecidableEq

/-- A commit, identified by its hash (the code reads `commit.hexsha`). -/
structure Commit where
  hexsha : String
  deriving DecidableEq

/-- Named captures of `re.match` for the tag match pattern: group values for
`major`, `minor`, `separator`.  `none` models an absent group; `some ""`
models a group that captured the empty string (both are falsy in Python). -/
structure Caps where
  major : Option String
  minor : Option String
  separator : Option String
  deriving DecidableEq

/-- Python truthiness test `if match.group(g):` on an optional capture:
an absent group and an empty capture are both falsy. -/
def capOr (o : Option String) (d : String) : String :=
  match o with
  | none => d
  | some s => if s = "" then d else s

/-- The result of `RepoDetails._calculate_version_value`: the four pieces of
state it writes (`self._major`, `self._minor`, `self._patch`,
`self._default_separator`). -/
structure VersionValues where
  major : String
  minor : String
  patch : String
  defaultSeparator : String
  deriving DecidableEq

/-- The tags whose name matches `re.match(tag_prefix + tag_match_pattern, str(tag))`.
The anchored regex matcher (prefix plus pattern, applied with `re.match`,
i.e. anchored at the start of the name) is abstracted as a capture function
`m : String → Option Caps`. -/
def matchedTags (m : String → Option Caps) (tags : List Tag) : List Tag :=
  tags.filter (fun t => (m t.name).isSome)

/-- The inner loop of `_calculate_version_value`: the first tag in
enumeration order whose target hash equals the commit's hash. -/
def tagFor (mts : List Tag) (c : Commit) : Option Tag :=
  mts.find? (fun t => t.sha = c.hexsha)

/-- The outer loop of `_calculate_version_value`: walk the (sub-path
filtered) commits newest first, incrementing the patch counter, until a
commit carries a matching tag with a non-empty name (the code breaks on
`tag_name != ''`). Returns the anchor tag name (or `""`) and the counter. -/
def anchorWalk (mts : List Tag) : List Commit → Nat → String × Nat
  | [], p => ("", p)
  | c :: rest, p =>
    let nm := match tagFor mts c with
      | some t => t.name
      | none => ""
    if nm = "" then anchorWalk mts rest (p + 1) else (nm, p)

/-- `RepoDetails._calculate_version_value` (repo_details.py lines 57-100):
filter the tags by the anchored match, walk the sub-path-filtered commits
newest first counting patch, then re-match the anchor tag name to extract
`major`, `minor` and `separator`, keeping defaults `"0"`, `"0"`, `"."` for
falsy captures. -/
def calculateVersionValue (m : String → Option Caps) (tags : List Tag)
    (commits : List Commit) : VersionValues :=
  let mts := matchedTags m tags
  let r := anchorWalk mts commits 0
  match m r.1 with
  | none => ⟨"0", "0", toString r.2, "."⟩
  | some cz =>
    ⟨capOr cz.major ("0"), capOr cz.minor ("0"), toString r.2,
      capOr cz.separator (".")⟩

/-- Normalization applied to each sub-path in `RepoDetails.__init__`
(lines 41-42): `replace('\\', '/')` then `lstrip('/')`. -/
def normalizeSubPath (s : String) : String :=
  ⟨(s.data.map (fun c => if c = '\\' then '/' else c)).dropWhile (fun c => c = '/')⟩

/-- The sub-path handling of `RepoDetails.__init__` (lines 38-43).  The loop
assigns `sub_paths[i] = ...` and then appends the same value to
`self.sub_paths`, so it mutates the caller's list in place.  Returned pair:
(contents of the caller-supplied list after construction, `self.sub_paths`). -/
def initSubPaths (subPaths : List String) : List String × List String :=
  if subPaths.isEmpty then (subPaths, [])
  else (subPaths.map normalizeSubPath, subPaths.map normalizeSubPath)

/-- The repository state a constructed `RepoDetails` object holds.  Commit
lists, diff counts, the branch name and the two strftime closures are data
obtained from GitPython (the external RepositoryAccess collaborator); the
version values are the output of `_calculate_version_value`. -/
structure RepoState where
  major : String
  minor : String
  patch : String
  defaultSeparator : String
  defaultVersionFormat : String
  datetimeFormat : String
  headHexsha : String
  branch : String
  allCommits : List String
  subPathCommits : List String
  modsVal : Nat
  dirModsVal : Nat
  useDirectoryHash : Bool
  commitDateF : String → String
  buildDateF : String → String

/-- Whitespace stripped by Python `int(str)` before parsing. -/
def isPySpace (c : Char) : Bool :=
  c = ' ' || c = '\t' || c = '\n' || c = '\r' || c.toNat = 11 || c.toNat = 12

/-- Strip leading and trailing whitespace, as Python `int(str)` does. -/
def pyStrip (l : List Char) : List Char :=
  ((l.dropWhile isPySpace).reverse.dropWhile isPySpace).reverse

/-- Digits of a Python integer literal after the first one: single
underscores are allowed between digits. -/
def pyDigitsGo : Nat → List Char → Option Nat
  | acc, [] => some acc
  | acc, '_' :: c :: rest =>
    if c.isDigit then pyDigitsGo (acc * 10 + (c.toNat - 48)) rest else none
  | _, ['_'] => none
  | acc, c :: rest =>
    if c.isDigit then pyDigitsGo (acc * 10 + (c.toNat - 48)) rest else none

/-- A non-empty digit sequence (with optional single underscores). -/
def pyDigits : List Char → Option Nat
  | [] => none
  | c :: rest => if c.isDigit then pyDigitsGo (c.toNat - 48) rest else none

/-- Python `int(s)` on a string: `some n` when it parses, `none` when it
raises `ValueError`. -/
def pyIntParse (s : String) : Option Int :=
  match pyStrip s.data with
  | '+' :: rest => (pyDigits rest).map (fun n => (n : Int))
  | '-' :: rest => (pyDigits rest).map (fun n => -(n : Int))
  | l => (pyDigits l).map (fun n => (n : Int))

/-- Python slicing `s[:n]`: a non-negative bound takes a prefix, a negative
bound drops that many characters from the end. -/
def pySlice (s : String) (n : Int) : String :=
  if 0 ≤ n then ⟨s.data.take n.toNat⟩
  else ⟨s.data.take (s.data.length - (-n).toNat)⟩

/-- `RepoDetails.dir_mods` (lines 205-215): indexes `_sub_path_commits[0]`,
which raises `IndexError` when the sub-path filter matched no commit;
otherwise the two diff lengths are external data (`dirModsVal`). -/
def dirMods (R : RepoState) : Except String Nat :=
  match R.subPathCommits with
  | [] => .error ("IndexError: list index out of range")
  | _ :: _ => .ok R.dirModsVal

/-- `RepoDetails.mods` (lines 191-203): delegates to `dir_mods` under
`use_directory_hash`, else indexes `_all_commits[0]`. -/
def mods (R : RepoState) : Except String Nat :=
  if R.useDirectoryHash then dirMods R
  else
    match R.allCommits with
    | [] => .error ("IndexError: list index out of range")
    | _ :: _ => .ok R.modsVal

/-- `RepoDetails.dir_sha` body after the int conversion (lines 168-169):
`self._sub_path_commits[0].hexsha[:num_chars]`. -/
def dirShaNum (R : RepoState) (numChars : Int) : Except String String :=
  match R.subPathCommits with
  | [] => .error ("IndexError: list index out of range")
  | c :: _ => .ok (pySlice c numChars)

/-- `RepoDetails.sha` body after the int conversion (lines 152-155). -/
def shaNum (R : RepoState) (numChars : Int) : Except String String :=
  if R.useDirectoryHash then dirShaNum R numChars
  else .ok (pySlice R.headHexsha numChars)

/-- `RepoDetails.sha` called with a captured string argument: `int(num_chars)`
with `ValueError` recovered to the default 7 (lines 147-150). -/
def shaArg (R : RepoState) (s : String) : Except String String :=
  shaNum R ((pyIntParse s).getD 7)

/-- `RepoDetails.dir_sha` called with a captured string argument. -/
def dirShaArg (R : RepoState) (s : String) : Except String String :=
  dirShaNum R ((pyIntParse s).getD 7)

/-- Recursion core of `replaceAll`; the fuel only makes the recursion
structural, the scan is finished whenever the fuel is at least the length
of the text. -/
def replaceAllGo (pat sub : List Char) : Nat → List Char → List Char
  | 0, l => l
  | fuel + 1, l =>
    match l with
    | [] => []
    | c :: rest =>
      if pat ≠ [] ∧ pat.isPrefixOf (c :: rest) then
        sub ++ replaceAllGo pat sub fuel ((c :: rest).drop pat.length)
      else c :: replaceAllGo pat sub fuel rest

/-- Python `str.replace(pat, sub)`: replace every non-overlapping occurrence
of `pat`, scanning left to right. -/
def replaceAll (pat sub l : List Char) : List Char :=
  replaceAllGo pat sub l.length l

/-- The placeholder substitution table of `RepoDetails._apply_format`
(lines 111-121), in source order: each placeholder code is rewritten to a
brace-delimited expression, longer codes first. -/
def formatTable : List (String × String) :=
  [("%dmc", "{self.dir_mods()}"),
   ("%mc", "{self.mods()}"),
   ("%spr", "{self.semver_pre_release()}"),
   ("%sbm", "{self.semver_build_metadata()}"),
   ("%dsh", "{self.dir_sha()}"),
   ("%sh", "{self.sha()}"),
   ("%s", "{separator}"),
   ("%M", "{self._major}"),
   ("%m", "{self._minor}"),
   ("%p", "{self._patch}"),
   ("%hm", "{self.has_modifications()}")]

/-- The chain of `formatting.replace(...)` calls of `_apply_format`,
applied in source order. -/
def chainReplace (l : List Char) : List Char :=
  formatTable.foldl (fun acc p => replaceAll p.1.data p.2.data acc) l

/-- One segment of a parsed f-string: a literal character or a
brace-delimited expression. -/
inductive FSeg where
  | lit (c : Char) : FSeg
  | expr (e : String) : FSeg
  deriving DecidableEq

/-- Scan up to the closing brace of an f-string expression; a nested
opening brace or a missing closing brace is a syntax error (`none`). -/
def splitAtBrace : List Char → Option (List Char × List Char)
  | [] => none
  | '}' :: rest => some ([], rest)
  | '{' :: _ => none
  | c :: rest => (splitAtBrace rest).map (fun p => (c :: p.1, p.2))

/-- Recursion core of `fstringParse`; the fuel only makes the recursion
structural, the parse is finished whenever the fuel is at least the length
of the text. -/
def fstringParseGo : Nat → List Char → Except String (List FSeg)
  | 0, _ => .ok []
  | fuel + 1, l =>
    match l with
    | [] => .ok []
    | '{' :: '{' :: r2 => (fstringParseGo fuel r2).map (fun s => .lit '{' :: s)
    | '}' :: '}' :: r2 => (fstringParseGo fuel r2).map (fun s => .lit '}' :: s)
    | '{' :: rest =>
      match splitAtBrace rest with
      | none => .error ("SyntaxError: bad expression in f-string")
      | some p => (fstringParseGo fuel p.2).map (fun s => .expr ⟨p.1⟩ :: s)
    | '}' :: _ => .error ("SyntaxError: single closing brace in f-string")
    | c :: rest => (fstringParseGo fuel rest).map (fun s => .lit c :: s)

/-- Parse the body of the f-string `eval(f'f"""{formatting}"""')` builds:
doubled braces are literal braces, a brace-delimited span is an expression,
a lone closing brace is a syntax error. -/
def fstringParse (l : List Char) : Except String (List FSeg) :=
  fstringParseGo l.length l

/-- Evaluate the parsed f-string left to right, looking expressions up in
the environment (the names `eval` can see); the first raising expression
aborts, as in Python. -/
def evalSegs (env : String → Except String String) : List FSeg → Except String String
  | [] => .ok ""
  | .lit c :: rest => (evalSegs env rest).map (fun s => ⟨c :: s.data⟩)
  | .expr e :: rest => do
    let v ← env e
    let s ← evalSegs env rest
    .ok (v ++ s)

/-- The separator defaulting of `_apply_format` (lines 109-110): a missing
or empty (falsy) separator argument falls back to the tag-derived default. -/
def effSep (R : RepoState) (sepOpt : Option String) : String :=
  match sepOpt with
  | none => R.defaultSeparator
  | some s => if s = "" then R.defaultSeparator else s

/-- The replacement chain followed by f-string evaluation under a given
expression environment. -/
def applyFormatCore (env : String → Except String String) (fmt : String) :
    Except String String :=
  match fstringParse (chainReplace fmt.data) with
  | .error e => .error e
  | .ok segs => evalSegs env segs

/-- The expression environment of `_apply_format`'s `eval`: exactly the
expressions the substitution table writes into the template.  `inner` is
`_apply_format` itself one recursion level down (used by
`semver_pre_release`, i.e. `has_dir_mods('-mods.%mc', '')`, and
`semver_build_metadata`).  `%hm` produces `self.has_modifications()`, a
method that does not exist on `RepoDetails`, so it raises.  Any other
expression in the template raises inside `eval`. -/
def evalExprAt (R : RepoState) (inner : Option String → String → Except String String)
    (sep : String) (e : String) : Except String String :=
  if e = "self.dir_mods()" then (dirMods R).map (fun n => toString n)
  else if e = "self.mods()" then (mods R).map (fun n => toString n)
  else if e = "self.semver_pre_release()" then do
    let a ← inner none ("-mods.%mc")
    let b ← inner none ("")
    match dirMods R with
    | .error err => .error err
    | .ok n => .ok (if 0 < n then a else b)
  else if e = "self.semver_build_metadata()" then inner none ("+sha.%sh")
  else if e = "self.dir_sha()" then dirShaNum R 7
  else if e = "self.sha()" then shaNum R 7
  else if e = "separator" then .ok sep
  else if e = "self._major" then .ok R.major
  else if e = "self._minor" then .ok R.minor
  else if e = "self._patch" then .ok R.patch
  else if e = "self.has_modifications()" then
    .error ("AttributeError: RepoDetails object has no attribute has_modifications")
  else .error ("NameError: name " ++ e ++ " is not defined")

/-- `RepoDetails._apply_format` (lines 102-122).  The fuel counts nested
`_apply_format` activations (Python's recursion limit); the expressions
reachable from the substitution table nest at most two levels, so any fuel
of at least 3 gives the Python behaviour. -/
def applyFormat (R : RepoState) : Nat → Option String → String → Except String String :=
  fun k =>
    Nat.rec (motive := fun _ => Option String → String → Except String String)
      (fun _ _ => .error ("RecursionError: maximum recursion depth exceeded"))
      (fun _ ih sepOpt fmt => applyFormatCore (evalExprAt R ih (effSep R sepOpt)) fmt)
      k

/-- `RepoDetails.has_mods` with string branch values (lines 217-226):
format both branches, then pick by `mods() > 0`. -/
def hasMods (R : RepoState) (k : Nat) (tv fv : String) : Except String String := do
  let a ← applyFormat R k none tv
  let b ← applyFormat R k none fv
  match mods R with
  | .error err => .error err
  | .ok n => .ok (if 0 < n then a else b)

/-- `RepoDetails.has_dir_mods` with string branch values (lines 228-237). -/
def hasDirMods (R : RepoState) (k : Nat) (tv fv : String) : Except String String := do
  let a ← applyFormat R k none tv
  let b ← applyFormat R k none fv
  match dirMods R with
  | .error err => .error err
  | .ok n => .ok (if 0 < n then a else b)

/-- Python's default recursion limit, used as fuel at every top-level
`_apply_format` entry point. -/
def recLimit : Nat := 1000

/-- `RepoDetails.version` (lines 239-249) as called with a separator
argument and no explicit format: format the default version format. -/
def version (R : RepoState) (sepOpt : Option String) : Except String String :=
  applyFormat R recLimit sepOpt R.defaultVersionFormat

/-- `RepoDetails.semver` (lines 251-256). -/
def semver (R : RepoState) : Except String String :=
  applyFormat R recLimit none ("%M.%m.%p")

/-- `RepoDetails.semver_extended` (lines 258-263). -/
def semverExtended (R : RepoState) : Except String String :=
  applyFormat R recLimit none ("%M.%m.%p%spr%sbm")

/-- `RepoDetails.commit_datetime` (lines 171-180) with a captured format:
an empty (falsy) format falls back to the configured default; the
strptime/strftime rendering over the head commit's authored time is the
external `commitDateF`. -/
def commitDatetime (R : RepoState) (fmt : String) : String :=
  R.commitDateF (if fmt = "" then R.datetimeFormat else fmt)

/-- `RepoDetails.current_datetime` (lines 182-189). -/
def currentDatetime (R : RepoState) (fmt : String) : String :=
  R.buildDateF (if fmt = "" then R.datetimeFormat else fmt)

/-- C `strftime` over a fixed time value, as a model for concrete
instantiations of `commitDateF`/`buildDateF`: a `%` followed by a directive
character expands through the table, every other character is copied. -/
def strftimeModel (table : Char → String) : List Char → List Char
  | [] => []
  | '%' :: c :: rest => (table c).data ++ strftimeModel table rest
  | c :: rest => c :: strftimeModel table rest

/-- The delimiter class `KEY_CHARACTERS = r'[!@#$%^&*]'` of versionhero.py. -/
def isKeyChar (c : Char) : Bool :=
  c = '!' || c = '@' || c = '#' || c = '$' || c = '%' || c = '^' || c = '&' || c = '*'

/-- The argument sub-pattern a keyword carries in `KeywordReplacer.execute`:
none, a non-greedy `(.*?)` capture, a greedy `(.*)` capture, or the
`\?(.*?):(.*?)` true/false pair. -/
inductive ArgShape where
  | noArg : ArgShape
  | nonGreedy : ArgShape
  | greedy : ArgShape
  | trueFalse : ArgShape
  deriving DecidableEq

/-- A registered keyword: its literal name and argument shape; the full
regex is `KEY_CHARACTERS ++ name ++ args ++ KEY_CHARACTERS`. -/
structure Keyword where
  name : List Char
  shape : ArgShape
  deriving DecidableEq

/-- One regex match of a keyword token: the full matched text
(`match.group()`) and the captured argument groups. -/
structure TokenMatch where
  whole : List Char
  arg1 : Option (List Char)
  arg2 : Option (List Char)
  deriving DecidableEq

/-- Lazy `(.*?)` followed by the delimiter class: the argument runs to the
first delimiter character; `.` does not cross a newline.  Returns the
argument, the closing delimiter and the remaining text. -/
def scanToDelim : List Char → Option (List Char × Char × List Char)
  | [] => none
  | c :: rest =>
    if isKeyChar c then some ([], c, rest)
    else if c = '\n' then none
    else (scanToDelim rest).map (fun p => (c :: p.1, p.2.1, p.2.2))

/-- Greedy `(.*)` followed by the delimiter class: the argument runs to the
last delimiter character before the next newline. -/
def scanToLastDelim : List Char → Option (List Char × Char × List Char)
  | [] => none
  | c :: rest =>
    if c = '\n' then none
    else
      match scanToLastDelim rest with
      | some p => some (c :: p.1, p.2.1, p.2.2)
      | none => if isKeyChar c then some ([], c, rest) else none

/-- The `(?P<true_value>.*?):(?P<false_value>.*?)[cls]` tail: the lazy
true-value tries each `:` from the left until the false-value scan
succeeds (regex backtracking). Returns (true value, false value, closing
delimiter, remaining text). -/
def scanTrueFalse : List Char → Option (List Char × List Char × Char × List Char)
  | [] => none
  | c :: rest =>
    let deeper := fun _ : Unit =>
      (scanTrueFalse rest).map (fun p => (c :: p.1, p.2.1, p.2.2.1, p.2.2.2))
    if c = ':' then
      match scanToDelim rest with
      | some p => some ([], p.1, p.2.1, p.2.2)
      | none => deeper ()
    else if c = '\n' then none
    else deeper ()

/-- Match the argument part of a keyword token: `after` is the text
following the opening delimiter and the keyword name. -/
def matchArgs (k : Keyword) (d : Char) (after : List Char) : Option TokenMatch :=
  match k.shape with
  | .noArg =>
    match after with
    | c2 :: _ => if isKeyChar c2 then some ⟨d :: (k.name ++ [c2]), none, none⟩ else none
    | [] => none
  | .nonGreedy =>
    (scanToDelim after).map (fun p =>
      ⟨d :: (k.name ++ p.1 ++ [p.2.1]), some p.1, none⟩)
  | .greedy =>
    (scanToLastDelim after).map (fun p =>
      ⟨d :: (k.name ++ p.1 ++ [p.2.1]), some p.1, none⟩)
  | .trueFalse =>
    match after with
    | '?' :: after2 =>
      (scanTrueFalse after2).map (fun p =>
        ⟨d :: (k.name ++ '?' :: p.1 ++ ':' :: p.2.1 ++ [p.2.2.1]),
          some p.1, some p.2.1⟩)
    | _ => none

/-- Try to match a keyword token at the start of the text
(one anchor position of `re.search`): an opening delimiter-class
character, the keyword literal, then the argument sub-pattern. -/
def matchAt (k : Keyword) (l : List Char) : Option TokenMatch :=
  match l with
  | [] => none
  | d :: rest =>
    if isKeyChar d && k.name.isPrefixOf rest then
      matchArgs k d (rest.drop k.name.length)
    else none

/-- `re.search` for a keyword token: the leftmost anchor position whose
match attempt succeeds. -/
def findMatch (k : Keyword) : List Char → Option TokenMatch
  | [] => matchAt k []
  | c :: rest =>
    match matchAt k (c :: rest) with
    | some m => some m
    | none => findMatch k rest

/-- Result of a replacement loop: normal exit, a Python exception, or fuel
exhausted with a match still present (the loop is still running). -/
inductive RunRes where
  | done (t : List Char) : RunRes
  | crashed (e : String) : RunRes
  | fuelOut (t : List Char) : RunRes
  deriving DecidableEq

/-- `KeywordReplacer.simple_replacement` (versionhero.py lines 212-235):
repeatedly `re.search` the keyword pattern and `str.replace` every
occurrence of the matched text with the handler's (stringified) result,
until no match remains.  Each unit of fuel funds one loop iteration, so
`fuelOut` means the loop ran through all its fuel without exiting. -/
def simpleReplacement (k : Keyword) (h : TokenMatch → Except String (List Char)) :
    Nat → List Char → RunRes
  | 0, t =>
    match findMatch k t with
    | none => .done t
    | some _ => .fuelOut t
  | f + 1, t =>
    match findMatch k t with
    | none => .done t
    | some m =>
      match h m with
      | .error e => .crashed e
      | .ok sub => simpleReplacement k h f (replaceAll m.whole sub t)

/-- First captured group as a string (both date formats, hash lengths and
the version separator arrive through this group). -/
def arg1Str (m : TokenMatch) : String :=
  ⟨m.arg1.getD []⟩

/-- Second captured group as a string. -/
def arg2Str (m : TokenMatch) : String :=
  ⟨m.arg2.getD []⟩

/-- The keyword registry of `KeywordReplacer.execute` (lines 242-261), in
source order, each keyword bound to its `RepoDetails` handler.  The
stringification `str(...)` applied to each handler result is part of the
handlers (counts render in decimal, the branch head renders as its name). -/
def passes (R : RepoState) :
    List (Keyword × (TokenMatch → Except String (List Char))) :=
  [(⟨"GITBRANCHNAME".data, .noArg⟩, fun _ => .ok R.branch.data),
   (⟨"GITMODCOUNT".data, .noArg⟩, fun _ => (mods R).map (fun n => (toString n).data)),
   (⟨"GITDIRMODCOUNT".data, .noArg⟩, fun _ => (dirMods R).map (fun n => (toString n).data)),
   (⟨"GITCOMMITNUMBER".data, .noArg⟩, fun _ => .ok (toString R.allCommits.length).data),
   (⟨"GITCOMMITDATE".data, .greedy⟩, fun m => .ok (commitDatetime R (arg1Str m)).data),
   (⟨"GITBUILDDATE".data, .greedy⟩, fun m => .ok (currentDatetime R (arg1Str m)).data),
   (⟨"GITHASH".data, .nonGreedy⟩, fun m => (shaArg R (arg1Str m)).map String.data),
   (⟨"GITDIRHASH".data, .nonGreedy⟩, fun m => (dirShaArg R (arg1Str m)).map String.data),
   (⟨"GITMODS".data, .trueFalse⟩, fun m =>
     (hasMods R recLimit (arg1Str m) (arg2Str m)).map String.data),
   (⟨"GITDIRMODS".data, .trueFalse⟩, fun m =>
     (hasDirMods R recLimit (arg1Str m) (arg2Str m)).map String.data),
   (⟨"GITVERSION".data, .nonGreedy⟩, fun m =>
     (version R (some (arg1Str m))).map String.data),
   (⟨"GITSEMVER".data, .noArg⟩, fun _ => (semver R).map String.data),
   (⟨"GITSEMVEREX".data, .noArg⟩, fun _ => (semverExtended R).map String.data),
   (⟨"GITMAJOR".data, .noArg⟩, fun _ => .ok R.major.data),
   (⟨"GITMINOR".data, .noArg⟩, fun _ => .ok R.minor.data),
   (⟨"GITPATCH".data, .noArg⟩, fun _ => .ok R.patch.data)]

/-- Run a list of keyword passes in order, threading the text. -/
def runPasses (fuel : Nat) :
    List (Keyword × (TokenMatch → Except String (List Char))) → List Char → RunRes
  | [], t => .done t
  | p :: ps, t =>
    match simpleReplacement p.1 p.2 fuel t with
    | .done t2 => runPasses fuel ps t2
    | .crashed e => .crashed e
    | .fuelOut t2 => .fuelOut t2

/-- `KeywordReplacer.execute` (lines 237-262): run every keyword's
replacement loop in source order over the text. -/
def execute (R : RepoState) (fuel : Nat) (t : List Char) : RunRes :=
  runPasses fuel (passes R) t

/-- Recursion core of `countTokens`; the fuel only makes the recursion
structural, the count is complete whenever the fuel is at least the length
of the text. -/
def countTokensGo (k : Keyword) : Nat → List Char → Nat
  | 0, _ => 0
  | fuel + 1, l =>
    match l with
    | [] => 0
    | c :: rest =>
      match matchAt k (c :: rest) with
      | some m => 1 + countTokensGo k fuel ((c :: rest).drop (max 1 m.whole.length))
      | none => countTokensGo k fuel rest

/-- Number of (leftmost, non-overlapping) occurrences of a keyword's token
pattern in a text. -/
def countTokens (k : Keyword) (l : List Char) : Nat :=
  countTokensGo k l.length l

/-- Number of delimiter-class characters in a text. -/
def keyCharCount (l : List Char) : Nat :=
  (l.filter isKeyChar).length

/-- Boolean substring test (used to state that a keyword name occurs
nowhere in a text). -/
def occursIn (pat : List Char) : List Char → Bool
  | [] => pat.isEmpty
  | c :: rest => pat.isPrefixOf (c :: rest) || occursIn pat rest

/-- A concrete strftime directive table (a fixed time 2020-01-02 03:04:05
UTC; unknown directives pass through as glibc does). -/
def dateTable : Char → String
  | 'Y' => "2020"
  | 'm' => "01"
  | 'd' => "02"
  | 'H' => "03"
  | 'M' => "04"
  | 'S' => "05"
  | 'z' => "+0000"
  | '%' => "%"
  | c => ⟨['%', c]⟩

/-- A concrete repository state: head commit `abcdef1234`, resolved version
values major 1 / minor 2 / patch 2, clean working tree. -/
def Rbase : RepoState :=
  { major := "1", minor := "2", patch := "2", defaultSeparator := ".",
    defaultVersionFormat := "%M%s%m%s%p%s%mc",
    datetimeFormat := "%Y-%m-%d %H:%M:%S%z",
    headHexsha := "abcdef1234", branch := "main",
    allCommits := ["abcdef1234"], subPathCommits := ["abcdef1234"],
    modsVal := 0, dirModsVal := 0, useDirectoryHash := false,
    commitDateF := fun s => ⟨strftimeModel dateTable s.data⟩,
    buildDateF := fun s => ⟨strftimeModel dateTable s.data⟩ }

/-- `Rbase` with one working-tree modification. -/
def Rmods1 : RepoState :=
  { Rbase with modsVal := 1 }

/-- `Rbase` with a sub-path filter that no commit in history touches:
`list(repo.iter_commits(paths=...))` came back empty. -/
def Rnosub : RepoState :=
  { Rbase with subPathCommits := [] }

/-!
  Theorems.  Each claim of CLAIMS.json is settled below; helper lemmas
  come first.
-/

theorem matchedTags_eq_nil {m : String → Option Caps} {tags : List Tag}
    (h : ∀ t ∈ tags, m t.name = none) : matchedTags m tags = [] := by
  induction tags with
  | nil => rfl
  | cons t ts ih =>
    have ht := h t (by simp)
    have hts : ∀ x ∈ ts, m x.name = none := fun x hx => h x (by simp [hx])
    simp only [matchedTags, List.filter_cons, ht, Option.isSome_none]
    simpa [matchedTags] using ih hts

theorem anchorWalk_nil_tags (cs : List Commit) (p : Nat) :
    anchorWalk [] cs p = ("", p + cs.length) := by
  induction cs generalizing p with
  | nil => simp [anchorWalk]
  | cons c rest ih =>
    simp only [anchorWalk, tagFor, List.find?_nil, if_true]
    rw [ih]
    simp only [List.length_cons]
    congr 1
    omega

/-- C1: if no tag name matches the configured prefix+pattern, the resolver
yields major `"0"`, minor `"0"`, default separator `"."`, and patch equal to
the number of commits in the sub-path-filtered history.  The anchored
matcher is abstracted as `m`; `hempty` records that a regex match of the
empty string `tag_name = ''` (which the code re-matches at the end) can only
produce empty, falsy captures, since every capture is a substring of the
subject. -/
theorem c1_no_matching_tags (m : String → Option Caps) (tags : List Tag)
    (commits : List Commit)
    (hnone : ∀ t ∈ tags, m t.name = none)
    (hempty : ∀ cz, m "" = some cz →
      capOr cz.major ("0") = "0" ∧ capOr cz.minor ("0") = "0" ∧
        capOr cz.separator (".") = ".") :
    calculateVersionValue m tags commits = ⟨"0", "0", toString commits.length, "."⟩ := by
  simp only [calculateVersionValue]
  rw [matchedTags_eq_nil hnone, anchorWalk_nil_tags]
  cases hm : m "" with
  | none => simp
  | some cz =>
    obtain ⟨h1, h2, h3⟩ := hempty cz hm
    simp [h1, h2, h3]

/-- Witness for C1: three commits, one tag that the matcher rejects. -/
theorem c1_witness :
    calculateVersionValue (fun _ => none) [⟨"v1.2", "aa"⟩] [⟨"c0"⟩, ⟨"c1"⟩, ⟨"c2"⟩]
      = ⟨"0", "0", "3", "."⟩ :=
  c1_no_matching_tags _ _ _ (fun _ _ => rfl)
    (fun _ h => absurd h (by simp))

theorem anchorWalk_anchor (mts : List Tag) (pre : List Commit) (c : Commit)
    (rest : List Commit) (t0 : Tag) (p : Nat)
    (hpre : ∀ x ∈ pre, tagFor mts x = none)
    (hc : tagFor mts c = some t0) (hname : ¬ t0.name = "") :
    anchorWalk mts (pre ++ c :: rest) p = (t0.name, p + pre.length) := by
  induction pre generalizing p with
  | nil =>
    simp only [List.nil_append, anchorWalk, hc]
    rw [if_neg hname]
    simp
  | cons x xs ih =>
    have hx := hpre x (by simp)
    have hxs : ∀ y ∈ xs, tagFor mts y = none := fun y hy => hpre y (by simp [hy])
    simp only [List.cons_append, anchorWalk, hx, if_true, List.append_eq]
    rw [ih (p + 1) hxs]
    simp only [List.length_cons]
    congr 1
    omega

/-- C2: if the commit at 0-indexed position `pre.length` of the filtered
newest-first history carries a matching tag (the first matching tag in
enumeration order being `t0`), and no matching tag targets any newer
commit, then patch is exactly that position and major/minor/separator come
from the anchor tag's captures with defaults `"0"`, `"0"`, `"."` for falsy
captures.  `hname` records the git invariant that a tag name is non-empty
(the code's loop-exit test is `tag_name != ''`). -/
theorem c2_anchor_tag (m : String → Option Caps) (tags : List Tag)
    (pre : List Commit) (c : Commit) (rest : List Commit) (t0 : Tag) (caps : Caps)
    (hpre : ∀ x ∈ pre, tagFor (matchedTags m tags) x = none)
    (hc : tagFor (matchedTags m tags) c = some t0)
    (hname : ¬ t0.name = "")
    (hcap : m t0.name = some caps) :
    calculateVersionValue m tags (pre ++ c :: rest) =
      ⟨capOr caps.major ("0"), capOr caps.minor ("0"), toString pre.length,
        capOr caps.separator (".")⟩ := by
  simp only [calculateVersionValue]
  rw [anchorWalk_anchor _ _ _ _ _ _ hpre hc hname]
  simp [hcap]

/-- Witness for C2 (Scenario A): commits `[c0, c1, c2]` newest first, tag
`v1.2` on `c2`: major `1`, minor `2`, patch `2`, separator `.`. -/
theorem c2_witness :
    calculateVersionValue
      (fun s => if s = "v1.2" then some ⟨some ("1"), some ("2"), some (".")⟩ else none)
      [⟨"v1.2", "c2"⟩] [⟨"c0"⟩, ⟨"c1"⟩, ⟨"c2"⟩] = ⟨"1", "2", "2", "."⟩ :=
  c2_anchor_tag _ _ [⟨"c0"⟩, ⟨"c1"⟩] ⟨"c2"⟩ [] ⟨"v1.2", "c2"⟩
    ⟨some ("1"), some ("2"), some (".")⟩
    (by decide) (by decide) (by decide) (by decide)

/-- C5 (code bug): a sub-path filter that no commit in history touches is
not the `RepositoryUnavailable` condition, yet `dir_sha` and `dir_mods`
index `self._sub_path_commits[0]` and raise `IndexError` instead of
returning a default, so a `!GITDIRHASH!` token crashes the whole
replacement run. -/
theorem c5_empty_subpath_filter_crashes :
    dirShaArg Rnosub ("7") = .error ("IndexError: list index out of range") ∧
    dirMods Rnosub = .error ("IndexError: list index out of range") ∧
    execute Rnosub 50 ("!GITDIRHASH!".data) =
      .crashed ("IndexError: list index out of range") := by
  exact ⟨rfl, rfl, rfl⟩

/-- C6: a hash-token length argument on which Python `int()` raises
`ValueError` is recovered locally: both hash handlers behave exactly as
with the built-in default length 7, and return normally. -/
theorem c6_malformed_hash_arg (R : RepoState) (s : String)
    (h : pyIntParse s = none) :
    shaArg R s = shaNum R 7 ∧ dirShaArg R s = dirShaNum R 7 := by
  constructor
  · simp [shaArg, h]
  · simp [dirShaArg, h]

/-- Witness for C6: the non-numeric length `"xy"`. -/
theorem c6_witness :
    shaArg Rbase ("xy") = shaNum Rbase 7 ∧ dirShaArg Rbase ("xy") = dirShaNum Rbase 7 :=
  c6_malformed_hash_arg Rbase ("xy") (by decide)

/-- C10 (amended): constructing `RepoDetails` overwrites each element of the
caller-supplied `sub_paths` list in place with its normalized form
(backslashes to forward slashes, leading slashes stripped), and
`self.sub_paths` holds the same values; the original strings are lost from
the caller's list exactly when normalization changes them. -/
theorem c10_subpaths_normalized_in_place (sp : List String) :
    initSubPaths sp = (sp.map normalizeSubPath, sp.map normalizeSubPath) := by
  by_cases h : sp.isEmpty
  · have hnil : sp = [] := by
      cases sp with
      | nil => rfl
      | cons a l => simp [List.isEmpty] at h
    subst hnil; rfl
  · simp [initSubPaths, h]

/-- Counterexample for C10 as stated: with `sub_paths = ["docs"]` (already
normalized) the caller's list still holds the original string `"docs"`
after construction, so "the caller's list no longer holds the original
strings" fails. -/
theorem c10_counterexample :
    (initSubPaths ["docs"]).fst = ["docs"] := by decide

/-- Counterexample for C3 as stated: the template text `{separator}` is not
a placeholder code, yet rendering evaluates it (the substituted template is
run through f-string evaluation), producing the separator value `"."`
instead of leaving the text untouched — template text other than
placeholder codes is re-interpreted. -/
theorem c3_counterexample :
    applyFormat Rbase recLimit none ("{separator}") = .ok (".") ∧
      ("." : String) ≠ "{separator}" :=
  ⟨rfl, by decide⟩

/-- C3 (amended): placeholder substitution itself is literal and single
pass, longer codes processed before shorter overlapping ones (the table
order `%dmc, %mc, %spr, %sbm, %dsh, %sh, %s, %M, %m, %p, %hm`), and
characters of substituted values are never re-interpreted as placeholders
or evaluated: for the default version format, every repository state and
every separator, the output is the literal concatenation of the values —
even when those values themselves contain `%` codes or braces.  (What the
original claim gets wrong is only the non-placeholder template text, which
is evaluated; see the counterexample.) -/
theorem c3_default_format_literal (R : RepoState) (k : Nat) (sepOpt : Option String)
    (n : Nat) (h : mods R = .ok n) :
    applyFormat R (k + 1) sepOpt ("%M%s%m%s%p%s%mc") =
      .ok (R.major ++ effSep R sepOpt ++ R.minor ++ effSep R sepOpt ++ R.patch ++
        effSep R sepOpt ++ toString n) := by
  have hs : applyFormat R (k + 1) sepOpt ("%M%s%m%s%p%s%mc") =
      applyFormatCore (evalExprAt R (applyFormat R k) (effSep R sepOpt))
        ("%M%s%m%s%p%s%mc") := rfl
  have hp : fstringParse (chainReplace ("%M%s%m%s%p%s%mc".data)) =
      .ok [.expr ("self._major"), .expr ("separator"), .expr ("self._minor"),
           .expr ("separator"), .expr ("self._patch"), .expr ("separator"),
           .expr ("self.mods()")] := rfl
  rw [hs]
  unfold applyFormatCore
  rw [hp]
  simp [evalSegs, evalExprAt, h, Except.map, Except.bind, bind, String.append_assoc,
    String.append_empty]

/-- Witness for C3 (amended): values major 1 / minor 2 / patch 2, separator
`-`, no modifications. -/
theorem c3_witness :
    applyFormat Rbase 1 (some ("-")) ("%M%s%m%s%p%s%mc") = .ok ("1-2-2-0") :=
  c3_default_format_literal Rbase 0 (some ("-")) 0 rfl

/-- Counterexample for C4 as stated: a handler whose output is the matched
token itself.  The original text contains exactly one occurrence of the
`GITPATCH` token pattern, yet with fuel for 5 iterations the loop is still
running (`fuelOut`), so the iteration count is not bounded by the
occurrence count — in fact `text.replace` reproduces the same text every
iteration and the loop never terminates. -/
theorem c4_counterexample :
    simpleReplacement ⟨"GITPATCH".data, .noArg⟩ (fun m => .ok m.whole) 5
        ("!GITPATCH!".data) = .fuelOut ("!GITPATCH!".data) ∧
      countTokens ⟨"GITPATCH".data, .noArg⟩ ("!GITPATCH!".data) = 1 :=
  ⟨rfl, rfl⟩

/-- Counterexample for C7 as stated: in `!GITBUILDDATE!@X@` the bracketed
substring `@X@` matches no registered keyword, yet the greedy `(.*)` date
argument swallows it (the argument runs to the last delimiter), so the
output `!@X` no longer contains it verbatim. -/
theorem c7_counterexample :
    execute Rbase 50 ("!GITBUILDDATE!@X@".data) = .done ("!@X".data) ∧
      occursIn ("@X@".data) ("!@X".data) = false :=
  ⟨rfl, rfl⟩

/-- Counterexample for C8 as stated: the input holds one `GITHASH` token
with the valid argument `2`, but the later `GITMODS` pass pastes its
true-branch text back into the output, re-creating a `GITHASH` token after
the `GITHASH` pass already ran; the final text still holds one occurrence
of the `GITHASH` pattern (with valid argument 5). -/
theorem c8_counterexample :
    execute Rmods1 50 ("!GITHASH2!!@GITMODS?GITHASH5!:y@".data) =
        .done ("ab!GITHASH5!".data) ∧
      countTokens ⟨"GITHASH".data, .nonGreedy⟩
        ("!GITHASH2!!@GITMODS?GITHASH5!:y@".data) = 1 ∧
      countTokens ⟨"GITHASH".data, .nonGreedy⟩ ("ab!GITHASH5!".data) = 1 :=
  ⟨rfl, rfl, rfl⟩

/-- Counterexample for C9 as stated: the spec's template uses keyword names
and an argument syntax that the code does not register (`HASH(5)`,
`VERSION(-)` instead of `GITHASH5`, `GITVERSION-`), so against the
scenario's repository (HEAD hash `abcdef1234`, resolved version `1.2.2.0`)
the template passes through unchanged, not as `abcde-1-2-2-0`. -/
theorem c9_counterexample :
    execute Rbase 50 ("!HASH(5)!-!VERSION(-)!".data) =
        .done ("!HASH(5)!-!VERSION(-)!".data) ∧
      ("!HASH(5)!-!VERSION(-)!".data ≠ "abcde-1-2-2-0".data) :=
  ⟨rfl, by decide⟩

/-- C9 (amended): with the keyword syntax the code actually registers, the
template `!GITHASH5!-!GITVERSION-!` processed against a repository with
HEAD hash `abcdef1234` and resolved version `1.2.2.0` produces exactly
`abcde-1-2-2-0`. -/
theorem c9_scenario_c :
    execute Rbase 50 ("!GITHASH5!-!GITVERSION-!".data) =
      .done ("abcde-1-2-2-0".data) := rfl

/-- C8 (amended): exhaustiveness holds at the level of each keyword's own
replacement loop: whenever `simple_replacement` exits normally, the
resulting text contains no occurrence of that keyword's token pattern (the
loop only exits when `re.search` fails).  It does not persist to the end of
`execute()`, because a later keyword's substitution can re-create an
earlier keyword's token (see the counterexample). -/
theorem c8_loop_exhaustive (k : Keyword) (h : TokenMatch → Except String (List Char))
    (fuel : Nat) (t t' : List Char)
    (hd : simpleReplacement k h fuel t = .done t') :
    findMatch k t' = none := by
  induction fuel generalizing t with
  | zero =>
    simp only [simpleReplacement] at hd
    split at hd
    · rename_i hf
      injection hd with h1
      rw [← h1]
      exact hf
    · simp at hd
  | succ f ih =>
    simp only [simpleReplacement] at hd
    split at hd
    · rename_i hf
      injection hd with h1
      rw [← h1]
      exact hf
    · split at hd
      · simp at hd
      · exact ih _ hd

/-- Witness for C8 (amended): one `GITPATCH` token, handler output `5`;
after the loop exits the result `5` has no further match. -/
theorem c8_witness :
    findMatch ⟨"GITPATCH".data, .noArg⟩ ("5".data) = none :=
  c8_loop_exhaustive ⟨"GITPATCH".data, .noArg⟩ (fun _ => .ok ("5".data)) 3
    ("!GITPATCH!".data) ("5".data) rfl

theorem isPrefixOf_false_of_occursIn_false {pat l : List Char}
    (h : occursIn pat l = false) : pat.isPrefixOf l = false := by
  cases l with
  | nil =>
    simp only [occursIn] at h
    cases pat with
    | nil => simp [List.isEmpty] at h
    | cons a as => rfl
  | cons c rest =>
    simp only [occursIn, Bool.or_eq_false_iff] at h
    exact h.1

theorem matchAt_name_found {k : Keyword} {l : List Char} {m : TokenMatch}
    (h : matchAt k l = some m) :
    ∃ c rest, l = c :: rest ∧ k.name.isPrefixOf rest = true := by
  cases l with
  | nil => simp [matchAt] at h
  | cons c rest =>
    refine ⟨c, rest, rfl, ?_⟩
    cases hp : k.name.isPrefixOf rest with
    | true => rfl
    | false =>
      simp only [matchAt, hp, Bool.and_false] at h
      cases h

theorem findMatch_none_of_not_occurs {k : Keyword} {t : List Char}
    (h : occursIn k.name t = false) : findMatch k t = none := by
  induction t with
  | nil => rfl
  | cons c rest ih =>
    simp only [occursIn, Bool.or_eq_false_iff] at h
    simp only [findMatch]
    cases hm : matchAt k (c :: rest) with
    | some m =>
      obtain ⟨c', rest', heq, hp⟩ := matchAt_name_found hm
      injection heq with h1 h2
      rw [← h2] at hp
      rw [isPrefixOf_false_of_occursIn_false h.2] at hp
      simp at hp
    | none => exact ih h.2

theorem simpleReplacement_no_match {k : Keyword}
    {h : TokenMatch → Except String (List Char)} {fuel : Nat} {t : List Char}
    (hf : findMatch k t = none) : simpleReplacement k h fuel t = .done t := by
  cases fuel with
  | zero => simp [simpleReplacement, hf]
  | succ f => simp [simpleReplacement, hf]

theorem runPasses_no_keyword {fuel : Nat} {t : List Char}
    (ps : List (Keyword × (TokenMatch → Except String (List Char))))
    (hall : ∀ p ∈ ps, occursIn p.1.name t = false) :
    runPasses fuel ps t = .done t := by
  induction ps with
  | nil => rfl
  | cons p ps ih =>
    have h1 := hall p (by simp)
    simp only [runPasses,
      simpleReplacement_no_match (findMatch_none_of_not_occurs h1)]
    exact ih (fun q hq => hall q (by simp [hq]))

/-- C7 (amended): delimiter-bracketed text that matches no registered
keyword is preserved verbatim whenever no registered keyword name occurs
anywhere in the text: `execute()` then returns the text unchanged (every
pattern requires its keyword literal, so no pass finds a match and none
errors).  When a greedy date token is present its argument can swallow
neighbouring bracketed text — see the counterexample. -/
theorem c7_unknown_tokens_untouched (R : RepoState) (fuel : Nat) (t : List Char)
    (hall : ∀ p ∈ passes R, occursIn p.1.name t = false) :
    execute R fuel t = .done t :=
  runPasses_no_keyword (passes R) hall

/-- Witness for C7 (amended): unknown bracketed tokens `@X@` and `$Y$`,
no registered keyword name in the text. -/
theorem c7_witness :
    execute Rbase 7 ("hello @X@ and $Y$".data) = .done ("hello @X@ and $Y$".data) :=
  c7_unknown_tokens_untouched Rbase 7 ("hello @X@ and $Y$".data) (by decide)

theorem isPrefixOf_decomp {pat l : List Char} (h : pat.isPrefixOf l = true) :
    l = pat ++ l.drop pat.length := by
  induction pat generalizing l with
  | nil => simp
  | cons a as ih =>
    cases l with
    | nil => simp [List.isPrefixOf] at h
    | cons b bs =>
      simp only [List.isPrefixOf, Bool.and_eq_true, beq_iff_eq] at h
      obtain ⟨hab, hrec⟩ := h
      subst hab
      simp only [List.length_cons, List.drop_succ_cons, List.cons_append,
        List.cons.injEq, true_and]
      exact ih hrec

theorem keyCharCount_append (a b : List Char) :
    keyCharCount (a ++ b) = keyCharCount a + keyCharCount b := by
  simp [keyCharCount, List.filter_append]

theorem keyCharCount_cons (c : Char) (l : List Char) :
    keyCharCount (c :: l) = (if isKeyChar c then 1 else 0) + keyCharCount l := by
  simp only [keyCharCount, List.filter_cons]
  split
  · simp [Nat.add_comm]
  · simp

theorem keyCharCount_nil : keyCharCount [] = 0 := rfl

theorem scanToDelim_decomp {l a : List Char} {cl : Char} {rem : List Char}
    (h : scanToDelim l = some (a, cl, rem)) :
    l = a ++ cl :: rem ∧ isKeyChar cl = true := by
  induction l generalizing a cl rem with
  | nil => simp [scanToDelim] at h
  | cons c rest ih =>
    simp only [scanToDelim] at h
    split at h
    · rename_i h1
      simp only [Option.some.injEq, Prod.mk.injEq] at h
      obtain ⟨ha, hcl, hrem⟩ := h
      subst ha; subst hcl; subst hrem
      exact ⟨rfl, h1⟩
    · split at h
      · cases h
      · rw [Option.map_eq_some'] at h
        obtain ⟨p, hp, hfp⟩ := h
        simp only [Prod.mk.injEq] at hfp
        obtain ⟨ha, hcl, hrem⟩ := hfp
        have hp2 : scanToDelim rest = some (p.1, p.2.1, p.2.2) := by rw [hp]
        obtain ⟨hd, hk⟩ := ih hp2
        subst ha; subst hcl; subst hrem
        constructor
        · rw [List.cons_append, ← hd]
        · exact hk

theorem scanToLastDelim_decomp {l a : List Char} {cl : Char} {rem : List Char}
    (h : scanToLastDelim l = some (a, cl, rem)) :
    l = a ++ cl :: rem ∧ isKeyChar cl = true := by
  induction l generalizing a cl rem with
  | nil => simp [scanToLastDelim] at h
  | cons c rest ih =>
    simp only [scanToLastDelim] at h
    split at h
    · cases h
    · split at h
      · rename_i p hp
        simp only [Option.some.injEq, Prod.mk.injEq] at h
        obtain ⟨ha, hcl, hrem⟩ := h
        have hp2 : scanToLastDelim rest = some (p.1, p.2.1, p.2.2) := by rw [hp]
        obtain ⟨hd, hk⟩ := ih hp2
        subst ha; subst hcl; subst hrem
        constructor
        · rw [List.cons_append, ← hd]
        · exact hk
      · split at h
        · rename_i h1
          simp only [Option.some.injEq, Prod.mk.injEq] at h
          obtain ⟨ha, hcl, hrem⟩ := h
          subst ha; subst hcl; subst hrem
          exact ⟨rfl, h1⟩
        · cases h

theorem scanTrueFalse_decomp {l tv fv : List Char} {cl : Char} {rem : List Char}
    (h : scanTrueFalse l = some (tv, fv, cl, rem)) :
    l = tv ++ ':' :: fv ++ cl :: rem ∧ isKeyChar cl = true := by
  induction l generalizing tv fv cl rem with
  | nil => simp [scanTrueFalse] at h
  | cons c rest ih =>
    simp only [scanTrueFalse] at h
    split at h
    · rename_i hcol
      split at h
      · rename_i p hp
        simp only [Option.some.injEq, Prod.mk.injEq] at h
        obtain ⟨htv, hfv, hcl, hrem⟩ := h
        have hp2 : scanToDelim rest = some (p.1, p.2.1, p.2.2) := by rw [hp]
        obtain ⟨hd, hk⟩ := scanToDelim_decomp hp2
        subst htv; subst hfv; subst hcl; subst hrem; subst hcol
        refine ⟨?_, hk⟩
        simp [hd]
      · rw [Option.map_eq_some'] at h
        obtain ⟨p, hp, hfp⟩ := h
        simp only [Prod.mk.injEq] at hfp
        obtain ⟨htv, hfv, hcl, hrem⟩ := hfp
        have hp2 : scanTrueFalse rest = some (p.1, p.2.1, p.2.2.1, p.2.2.2) := by rw [hp]
        obtain ⟨hd, hk⟩ := ih hp2
        subst htv; subst hfv; subst hcl; subst hrem
        refine ⟨?_, hk⟩
        simp [hd]
    · split at h
      · cases h
      · rw [Option.map_eq_some'] at h
        obtain ⟨p, hp, hfp⟩ := h
        simp only [Prod.mk.injEq] at hfp
        obtain ⟨htv, hfv, hcl, hrem⟩ := hfp
        have hp2 : scanTrueFalse rest = some (p.1, p.2.1, p.2.2.1, p.2.2.2) := by rw [hp]
        obtain ⟨hd, hk⟩ := ih hp2
        subst htv; subst hfv; subst hcl; subst hrem
        refine ⟨?_, hk⟩
        simp [hd]

theorem matchAt_decomp {k : Keyword} {l : List Char} {m : TokenMatch}
    (h : matchAt k l = some m) :
    (∃ suf, l = m.whole ++ suf) ∧ 2 ≤ keyCharCount m.whole := by
  cases l with
  | nil => simp [matchAt] at h
  | cons d rest =>
    simp only [matchAt] at h
    split at h
    · rename_i hcond
      rw [Bool.and_eq_true] at hcond
      obtain ⟨hd, hpre⟩ := hcond
      have hr : rest = k.name ++ rest.drop k.name.length := isPrefixOf_decomp hpre
      simp only [matchArgs] at h
      split at h
      · -- noArg
        split at h
        · rename_i c2 tail heq
          split at h
          · rename_i hc2
            simp only [Option.some.injEq] at h
            subst h
            refine ⟨⟨tail, ?_⟩, ?_⟩
            · simp only [List.cons_append, List.cons.injEq, true_and]
              rw [hr, heq]
              simp
            · simp [keyCharCount_cons, keyCharCount_append, keyCharCount_nil, hd, hc2]
              omega
          · cases h
        · cases h
      · -- nonGreedy
        rw [Option.map_eq_some'] at h
        obtain ⟨p, hp, hfp⟩ := h
        have hp2 : scanToDelim (rest.drop k.name.length) = some (p.1, p.2.1, p.2.2) := by
          rw [hp]
        obtain ⟨hsd, hk⟩ := scanToDelim_decomp hp2
        subst hfp
        refine ⟨⟨p.2.2, ?_⟩, ?_⟩
        · simp only [List.cons_append, List.cons.injEq, true_and]
          rw [hr, hsd]
          simp
        · simp [keyCharCount_cons, keyCharCount_append, keyCharCount_nil, hd, hk]
          omega
      · -- greedy
        rw [Option.map_eq_some'] at h
        obtain ⟨p, hp, hfp⟩ := h
        have hp2 : scanToLastDelim (rest.drop k.name.length) = some (p.1, p.2.1, p.2.2) := by
          rw [hp]
        obtain ⟨hsd, hk⟩ := scanToLastDelim_decomp hp2
        subst hfp
        refine ⟨⟨p.2.2, ?_⟩, ?_⟩
        · simp only [List.cons_append, List.cons.injEq, true_and]
          rw [hr, hsd]
          simp
        · simp [keyCharCount_cons, keyCharCount_append, keyCharCount_nil, hd, hk]
          omega
      · -- trueFalse
        split at h
        · rename_i after2 heq
          rw [Option.map_eq_some'] at h
          obtain ⟨p, hp, hfp⟩ := h
          have hp2 : scanTrueFalse after2 = some (p.1, p.2.1, p.2.2.1, p.2.2.2) := by
            rw [hp]
          obtain ⟨hsd, hk⟩ := scanTrueFalse_decomp hp2
          subst hfp
          refine ⟨⟨p.2.2.2, ?_⟩, ?_⟩
          · simp only [List.cons_append, List.cons.injEq, true_and]
            rw [hr, heq, hsd]
            simp
          · simp [keyCharCount_cons, keyCharCount_append, keyCharCount_nil, hd, hk]
            simp [isKeyChar]
            omega
        · cases h
    · cases h


theorem findMatch_decomp {k : Keyword} {t : List Char} {m : TokenMatch}
    (h : findMatch k t = some m) :
    (∃ pre suf, t = pre ++ m.whole ++ suf) ∧ 2 ≤ keyCharCount m.whole := by
  induction t with
  | nil => simp [findMatch, matchAt] at h
  | cons c rest ih =>
    simp only [findMatch] at h
    cases hm : matchAt k (c :: rest) with
    | some m2 =>
      rw [hm] at h
      injection h with h1
      subst h1
      obtain ⟨⟨suf, hsuf⟩, hk⟩ := matchAt_decomp hm
      exact ⟨⟨[], suf, by simp [hsuf]⟩, hk⟩
    | none =>
      rw [hm] at h
      obtain ⟨⟨pre, suf, hsuf⟩, hk⟩ := ih h
      exact ⟨⟨c :: pre, suf, by simp [hsuf]⟩, hk⟩

theorem replaceAllGo_kcc_le (pat sub : List Char) (hsub : keyCharCount sub = 0)
    (fuel : Nat) : ∀ l, keyCharCount (replaceAllGo pat sub fuel l) ≤ keyCharCount l := by
  induction fuel with
  | zero => intro l; simp [replaceAllGo]
  | succ f ih =>
    intro l
    cases l with
    | nil => simp [replaceAllGo]
    | cons c rest =>
      simp only [replaceAllGo]
      split
      · rename_i hp
        rw [keyCharCount_append, hsub]
        have h1 := ih ((c :: rest).drop pat.length)
        have h2 : (c :: rest) = pat ++ (c :: rest).drop pat.length :=
          isPrefixOf_decomp hp.2
        calc 0 + keyCharCount (replaceAllGo pat sub f ((c :: rest).drop pat.length))
            ≤ keyCharCount ((c :: rest).drop pat.length) := by omega
          _ ≤ keyCharCount (c :: rest) := by
              conv_rhs => rw [h2]
              rw [keyCharCount_append]
              omega
      · rename_i hp
        rw [keyCharCount_cons, keyCharCount_cons]
        have := ih rest
        omega

theorem isPrefixOf_append_self (pat suf : List Char) :
    pat.isPrefixOf (pat ++ suf) = true := by
  induction pat with
  | nil => simp [List.isPrefixOf]
  | cons a as ih => simp [List.isPrefixOf, ih]

theorem ne_nil_of_eq_append_nil {pat pre suf : List Char}
    (hocc : ([] : List Char) = pre ++ pat ++ suf) : pat = [] := by
  have hl := congrArg List.length hocc
  simp only [List.length_nil, List.length_append] at hl
  cases pat with
  | nil => rfl
  | cons a as => simp only [List.length_cons] at hl; omega

theorem replaceAllGo_kcc_lt (pat sub : List Char) (hsub : keyCharCount sub = 0)
    (hpat : 2 ≤ keyCharCount pat) (fuel : Nat) :
    ∀ l pre suf, l = pre ++ pat ++ suf → l.length ≤ fuel →
      keyCharCount (replaceAllGo pat sub fuel l) + 2 ≤ keyCharCount l := by
  have hpatne : pat ≠ [] := by
    intro he
    rw [he] at hpat
    simp [keyCharCount] at hpat
  induction fuel with
  | zero =>
    intro l pre suf hocc hlen
    have hl : l = [] := by
      cases l with
      | nil => rfl
      | cons a as => simp at hlen
    rw [hl] at hocc
    exact absurd (ne_nil_of_eq_append_nil hocc) hpatne
  | succ f ih =>
    intro l pre suf hocc hlen
    cases l with
    | nil => exact absurd (ne_nil_of_eq_append_nil hocc) hpatne
    | cons c rest =>
      simp only [replaceAllGo]
      split
      · rename_i hp
        rw [keyCharCount_append, hsub]
        have h2 : (c :: rest) = pat ++ (c :: rest).drop pat.length :=
          isPrefixOf_decomp hp.2
        have h1 := replaceAllGo_kcc_le pat sub hsub f ((c :: rest).drop pat.length)
        conv_rhs => rw [h2]
        rw [keyCharCount_append]
        omega
      · rename_i hp
        cases pre with
        | nil =>
          exfalso
          apply hp
          constructor
          · exact hpatne
          · rw [List.nil_append] at hocc
            rw [hocc]
            exact isPrefixOf_append_self pat suf
        | cons p0 pre2 =>
          simp only [List.cons_append, List.cons.injEq] at hocc
          obtain ⟨hc, hrest⟩ := hocc
          have hlen2 : rest.length ≤ f := by
            simp only [List.length_cons] at hlen
            omega
          have := ih rest pre2 suf hrest hlen2
          rw [keyCharCount_cons, keyCharCount_cons]
          omega

/-- C4 (amended): the per-keyword replacement loop terminates whenever every
string the handler returns is free of delimiter-class characters (as all
numeric and hash handlers are): each iteration removes a match containing
at least two delimiter characters and inserts none, so the loop exits
within half the delimiter count of the original text.  With handler
outputs that re-create the token the loop need not terminate at all, and
even with delimiter-free outputs the iteration count is not bounded by the
token-occurrence count of the original text — see the counterexample. -/
theorem c4_loop_terminates (k : Keyword) (h : TokenMatch → Except String (List Char))
    (hh : ∀ m : TokenMatch, ∃ s, h m = .ok s ∧ keyCharCount s = 0) (n : Nat) :
    ∀ t, keyCharCount t ≤ 2 * n → ∃ t', simpleReplacement k h n t = .done t' := by
  induction n with
  | zero =>
    intro t ht
    cases hf : findMatch k t with
    | none => exact ⟨t, by simp [simpleReplacement, hf]⟩
    | some m =>
      obtain ⟨⟨pre, suf, heq⟩, hm2⟩ := findMatch_decomp hf
      exfalso
      rw [heq] at ht
      rw [keyCharCount_append, keyCharCount_append] at ht
      omega
  | succ nn ih =>
    intro t ht
    cases hf : findMatch k t with
    | none => exact ⟨t, by simp [simpleReplacement, hf]⟩
    | some m =>
      obtain ⟨sm, hsm, hsmk⟩ := hh m
      obtain ⟨⟨pre, suf, heq⟩, hm2⟩ := findMatch_decomp hf
      have hstep : keyCharCount (replaceAll m.whole sm t) + 2 ≤ keyCharCount t := by
        apply replaceAllGo_kcc_lt m.whole sm hsmk hm2 t.length t pre suf heq
          (Nat.le_refl t.length)
      obtain ⟨t', ht'⟩ := ih (replaceAll m.whole sm t) (by omega)
      refine ⟨t', ?_⟩
      simp only [simpleReplacement, hf, hsm]
      exact ht'

/-- Witness for C4 (amended): one `GITMAJOR` token, delimiter-free handler
output `1`, delimiter count 2, so fuel 1 suffices. -/
theorem c4_witness :
    ∃ t', simpleReplacement ⟨"GITMAJOR".data, .noArg⟩ (fun _ => .ok ("1".data)) 1
      ("!GITMAJOR!".data) = .done t' :=
  c4_loop_terminates ⟨"GITMAJOR".data, .noArg⟩ (fun _ => .ok ("1".data))
    (fun _ => ⟨"1".data, rfl, rfl⟩) 1 ("!GITMAJOR!".data) (by decide)

end VersionHero
